import Mathlib

/-!
Verification development for a regex-to-automaton compiler.

The development shallowly embeds the three passes of the source system:

* `RegexCompiler` : the recursive-descent parser (`RegexCompiler.py`),
  translated position-for-position; the position cursor of the Python
  class becomes an explicit `Nat` argument, the two `while` loops become
  fuel-indexed recursions, and `raise` becomes the `err` constructor.
* `NFACore` : the Thompson-style NFA builder, the `match` simulation and
  the JSON exporter (`NFA.py`); Python state objects with dense integer
  ids become positions in a `List StateData` arena.
* `DFACore` : the JSON loader, subset construction and the partition
  split of the minimizer (`DFA.py`).  The loader allocates a fresh start
  state object that is distinct from the list entry of the same name, so
  state references are modelled by `Ref` with a dedicated `fresh`
  constructor; the in-place `|=` mutation of loaded transition sets is
  modelled by threading the mutated automaton through
  `getReachableStates`.

Python strings are `List Char`; Python `None`-able values are `Option`.
Python `set` insertion (`set.add`, `|=`) is modelled by order-preserving
duplicate-free list insertion, and equality of two Python sets of state
ids is resolved canonically (sorted id lists); theorem `c3_counterexample`
records that the identity key computed by the source is sensitive to the
enumeration order of the underlying set.
-/

namespace RegexCompiler

/-- The `NodeType` enum of `RegexCompiler.py`. -/
inductive NodeType where
  | Root | Char | Group | CharacterSet | Range | Any
  deriving DecidableEq, Repr

/-- An `ExprNode` of `RegexCompiler.py`: kind, optional literal value,
the `quantifier` entry of `params`, the `start`/`end` range entries of
`params`, and the `children` list of alternatives. -/
inductive ExprNode where
  | mk (ty : NodeType) (value : Option Char) (quantifier : Option Char)
       (rangeStart rangeEnd : Option Nat) (children : List (List ExprNode))

def ExprNode.ty : ExprNode → NodeType
  | .mk t _ _ _ _ _ => t

def ExprNode.value : ExprNode → Option Char
  | .mk _ v _ _ _ _ => v

def ExprNode.quantifier : ExprNode → Option Char
  | .mk _ _ q _ _ _ => q

def ExprNode.rangeStart : ExprNode → Option Nat
  | .mk _ _ _ s _ _ => s

def ExprNode.rangeEnd : ExprNode → Option Nat
  | .mk _ _ _ _ e _ => e

def ExprNode.children : ExprNode → List (List ExprNode)
  | .mk _ _ _ _ _ c => c

/-- `SPECIAL_CHARS` of `RegexCompiler.py`. -/
def SPECIAL_CHARS : List Char := ['(', ')', '[', '|', '?', '+', '*']

/-- Outcome of a parsing function: a value, a raised exception carrying
the position, or exhausted recursion fuel (never reached, see
`RegularCompiler_total`). -/
inductive PResult (α : Type) where
  | ok (a : α)
  | err (pos : Nat)
  | noFuel
  deriving Repr

/-- Overwrite the quantifier entry of a node, as
`node.params['quantifier'] = q` does. -/
def setQuant : ExprNode → Char → ExprNode
  | .mk t v _ rs re ch, q => .mk t v (some q) rs re ch

/-- `_assignQuantifier`: try to eat `?`, then `+`, then `*`, and attach
the first that matches. -/
def assignQuantifier (e : List Char) (n : ExprNode) (p : Nat) : ExprNode × Nat :=
  if e.get? p = some '?' then (setQuant n '?', p + 1)
  else if e.get? p = some '+' then (setQuant n '+', p + 1)
  else if e.get? p = some '*' then (setQuant n '*', p + 1)
  else (n, p)

/-- `_parseChar`: read the character under the cursor (it may be absent
when the cursor is at the end, in which case `_eat` fails silently and
the node value is `None`). -/
def parseChar (e : List Char) (p : Nat) : ExprNode × Nat :=
  match e.get? p with
  | some c => (.mk .Char (some c) none none none [], p + 1)
  | none => (.mk .Char none none none none [], p)

/-- `_parseRange`: succeeds only when the cursor sees `a-b` with `b`
present; consumes three characters and raises when `ord(a) > ord(b)`.
`Sum.inl` is the raised exception (with its position), `Sum.inr` the
parsed node. -/
def parseRange (e : List Char) (p : Nat) : Option (Sum Nat (ExprNode × Nat)) :=
  match e.get? p, e.get? (p + 1), e.get? (p + 2) with
  | some a, some '-', some b =>
      if b.toNat < a.toNat then some (Sum.inl (p + 3))
      else some (Sum.inr (.mk .Range none none (some a.toNat) (some b.toNat) [], p + 3))
  | _, _, _ => none

/-- The `while` loop of `_parseSet`.  `esc` is the `next_escape` flag,
`acc` the accumulated `children` rows (the set parser appends each item
as a singleton row).  The dead `peak() is None` raise inside the loop is
unreachable because the loop guard already checked `_done()`. -/
def parseSetLoop (e : List Char) : Nat → Nat → Bool → List (List ExprNode) →
    PResult (List (List ExprNode) × Nat)
  | 0, _, _, _ => .noFuel
  | fuel + 1, p, esc, acc =>
    match e.get? p with
    | none => .ok (acc, p)
    | some c =>
      if c = '\\' then parseSetLoop e fuel (p + 1) true acc
      else if esc then
        match parseRange e p with
        | some (Sum.inl q) => .err q
        | some (Sum.inr (n, q)) => parseSetLoop e fuel q false (acc ++ [[n]])
        | none =>
            let nq := parseChar e p
            parseSetLoop e fuel nq.2 false (acc ++ [[nq.1]])
      else if c = ']' then .ok (acc, p)
      else
        match parseRange e p with
        | some (Sum.inl q) => .err q
        | some (Sum.inr (n, q)) => parseSetLoop e fuel q false (acc ++ [[n]])
        | none =>
            let nq := parseChar e p
            parseSetLoop e fuel nq.2 false (acc ++ [[nq.1]])

/-- The `while` loop of `_parseGroup`.  `rows` are the completed
alternatives (before the current `curr_or`), `cur` the alternative being
filled.  Branches appear in the source order: `(`, `)`, `[`, `\`, `.`,
`|`, ordinary character, and the final raise for a bare quantifier. -/
def parseGroupLoop (e : List Char) : Nat → Nat → Bool → List (List ExprNode) →
    List ExprNode → PResult (List (List ExprNode) × Nat)
  | 0, _, _, _, _ => .noFuel
  | fuel + 1, p, isRoot, rows, cur =>
    match e.get? p with
    | none => .ok (rows ++ [cur], p)
    | some c =>
      if c = '(' then
        match parseGroupLoop e fuel (p + 1) false [] [] with
        | .noFuel => .noFuel
        | .err q => .err q
        | .ok (chrows, q) =>
          if e.get? q = some ')' then
            let nq := assignQuantifier e (.mk .Group none none none none chrows) (q + 1)
            parseGroupLoop e fuel nq.2 isRoot rows (cur ++ [nq.1])
          else .err q
      else if c = ')' then
        if isRoot then .err p else .ok (rows ++ [cur], p)
      else if c = '[' then
        match parseSetLoop e fuel (p + 1) false [] with
        | .noFuel => .noFuel
        | .err q => .err q
        | .ok (items, q) =>
          if e.get? q = some ']' then
            let nq := assignQuantifier e (.mk .CharacterSet none none none none items) (q + 1)
            parseGroupLoop e fuel nq.2 isRoot rows (cur ++ [nq.1])
          else .err q
      else if c = '\\' then
        let nq := parseChar e (p + 1)
        let nq2 := assignQuantifier e nq.1 nq.2
        parseGroupLoop e fuel nq2.2 isRoot rows (cur ++ [nq2.1])
      else if c = '.' then
        let nq2 := assignQuantifier e (.mk .Any none none none none []) (p + 1)
        parseGroupLoop e fuel nq2.2 isRoot rows (cur ++ [nq2.1])
      else if c = '|' then
        parseGroupLoop e fuel (p + 1) isRoot (rows ++ [cur]) []
      else if c ∈ SPECIAL_CHARS then .err p
      else
        let nq := parseChar e p
        let nq2 := assignQuantifier e nq.1 nq.2
        parseGroupLoop e fuel nq2.2 isRoot rows (cur ++ [nq2.1])

/-- `RegularCompiler.__init__`: parse the whole expression at root level
and retag the produced group node as `Root`.  The fuel `e.length + 1` is
sufficient (`RegularCompiler_total`). -/
def RegularCompiler (e : List Char) : PResult ExprNode :=
  match parseGroupLoop e (e.length + 1) 0 true [] [] with
  | .ok (rows, _) => .ok (.mk .Root none none none none rows)
  | .err q => .err q
  | .noFuel => .noFuel

end RegexCompiler

namespace NFACore

/-- A transition label of `NFA.py`: Python stores labels as the raw
strings built by the constructor, and a `Char` node parsed from a
trailing backslash carries the Python value `None`, so a label is an
optional character list.  Concretely: a single literal character
`[c]`, the wildcard marker `['.']`, the escaped-dot marker
`['\', '\', '.']` (the Python literal `'\\\\.'`), a range marker
`[a, ' ', '-', ' ', b]`, or `none`. -/
abbrev Label := Option (List Char)

/-- One NFA state of `NFA.py`: the `is_final` flag, the labelled
transition dictionary (insertion-ordered keys, duplicate-free target
sets in insertion order) and the epsilon-transition set.  Targets are
state ids, which for every automaton built here coincide with list
positions. -/
structure StateData where
  final : Bool
  trans : List (Label × List Nat)
  eps : List Nat
  deriving DecidableEq, Repr

def emptyState : StateData := ⟨false, [], []⟩

/-- The arena form of `NFA`: state ids are list positions, `start` and
`accept` are the ids of `start_state` and `final_state`. -/
structure MNFA where
  states : List StateData
  start : Nat
  accept : Nat
  deriving DecidableEq, Repr

/-- Insertion into a Python set modelled on insertion-ordered
duplicate-free lists. -/
def insertNat (t : Nat) (l : List Nat) : List Nat :=
  if t ∈ l then l else l ++ [t]

/-- `dict`-of-`set` insertion: `State.add_transition`. -/
def addToTrans {κ : Type} [DecidableEq κ] : List (κ × List Nat) → κ → Nat →
    List (κ × List Nat)
  | [], key, t => [(key, [t])]
  | (k0, ts) :: rest, key, t =>
      if k0 = key then (k0, insertNat t ts) :: rest
      else (k0, ts) :: addToTrans rest key t

/-- Association-list lookup for a transition dictionary. -/
def getKV {κ : Type} [DecidableEq κ] {β : Type} : List (κ × β) → κ → Option β
  | [], _ => none
  | (k0, v) :: rest, key => if k0 = key then some v else getKV rest key

/-- Overwrite the value stored under an existing key (dictionary
assignment `d[k] = v`, appending when the key is absent). -/
def setKV {κ : Type} [DecidableEq κ] {β : Type} : List (κ × β) → κ → β → List (κ × β)
  | [], key, v => [(key, v)]
  | (k0, v0) :: rest, key, v =>
      if k0 = key then (k0, v) :: rest else (k0, v0) :: setKV rest key v

def addTransition (sd : StateData) (lab : Label) (t : Nat) : StateData :=
  { sd with trans := addToTrans sd.trans lab t }

def addEpsTransition (sd : StateData) (t : Nat) : StateData :=
  { sd with eps := insertNat t sd.eps }

/-- Apply `f` to the state stored at position `i` (mutation of one
state object of the arena). -/
def modifyState (sts : List StateData) (i : Nat) (f : StateData → StateData) :
    List StateData :=
  sts.set i (f (sts.getD i emptyState))

/-- Renumber one copied state by an id offset, as the `state_map`
copies of `_build_concatenation` and `_build_alternation` do. -/
def shiftState (o : Nat) (sd : StateData) : StateData :=
  { sd with trans := sd.trans.map (fun lt => (lt.1, lt.2.map (· + o))),
            eps := sd.eps.map (· + o) }

/-- The transition label written by `_build_basic_node_char`: the
escaped-dot marker for a literal dot, otherwise the character itself
(`None` stays `None`). -/
def charLabel : Option Char → Label
  | some '.' => some ['\\', '\\', '.']
  | some c => some [c]
  | none => none

/-- Fragment of `_build_basic_node_char`. -/
def charFrag (v : Option Char) : MNFA :=
  { states := [⟨false, [(charLabel v, [1])], []⟩, ⟨true, [], []⟩], start := 0, accept := 1 }

/-- Fragment of `_build_basic_node_any`: the wildcard label is the
one-character string dot. -/
def anyFrag : MNFA :=
  { states := [⟨false, [(some ['.'], [1])], []⟩, ⟨true, [], []⟩], start := 0, accept := 1 }

/-- Fragment of `_build_basic_node_range`: one transition labelled with
the f-string `chr(start) - chr(end)`.  The `params` lookups are total
on `Range` nodes; missing bounds default to code point 0. -/
def rangeFrag (a b : Option Nat) : MNFA :=
  { states := [⟨false, [(some ([Char.ofNat (a.getD 0)] ++ [' ', '-', ' '] ++
      [Char.ofNat (b.getD 0)]), [1])], []⟩, ⟨true, [], []⟩],
    start := 0, accept := 1 }

/-- The two-state epsilon fragment used for empty groups and empty
concatenations. -/
def epsFrag : MNFA :=
  { states := [⟨false, [], [1]⟩, ⟨true, [], []⟩], start := 0, accept := 1 }

/-- Lay the states of the sub-automata of `_build_concatenation` into
one arena, shifting each sub-automaton by the number of states placed
before it, exactly as the sequential `create_state` copies do. -/
def placeAll : Nat → List MNFA → List StateData
  | _, [] => []
  | o, m :: rest => m.states.map (shiftState o) ++ placeAll (o + m.states.length) rest

/-- The chaining loop of `_build_concatenation`: clear the final flag
of every intermediate accept state and link it by an epsilon edge to
the next fragment's start. -/
def linkChain : Nat → List MNFA → List StateData → List StateData
  | _, [], sts => sts
  | _, [_], sts => sts
  | o, m :: m2 :: rest, sts =>
      let sts2 := modifyState sts (o + m.accept)
        (fun sd => { addEpsTransition sd (o + m.states.length + m2.start) with final := false })
      linkChain (o + m.states.length) (m2 :: rest) sts2

/-- The offset-adjusted accept state of the last fragment of a chain. -/
def chainAccept : Nat → List MNFA → Nat
  | _, [] => 0
  | o, [m] => o + m.accept
  | o, m :: rest => chainAccept (o + m.states.length) rest

/-- `_build_concatenation` applied to already-built fragments. -/
def concatFrags (subs : List MNFA) : MNFA :=
  { states := linkChain 0 subs (placeAll 0 subs),
    start := (subs.headD epsFrag).start,
    accept := chainAccept 0 subs }

/-- `_build_concatenation` over AST nodes, with `bld` the recursive
`NFA(node)` constructor. -/
def concatWith (bld : RegexCompiler.ExprNode → MNFA)
    (nodes : List RegexCompiler.ExprNode) : MNFA :=
  match nodes with
  | [] => epsFrag
  | _ => concatFrags (nodes.map bld)

/-- One iteration of the alternative loop of `_build_alternation`:
an empty alternative links start to accept directly, a non-empty one
copies the freshly built sub-automaton behind the current arena,
links start to its start, and redirects its final states to the
common accept while clearing their flags. -/
def addAltRow (bld : RegexCompiler.ExprNode → MNFA) (m : MNFA)
    (row : List RegexCompiler.ExprNode) : MNFA :=
  match row with
  | [] => { m with states := modifyState m.states 0 (fun sd => addEpsTransition sd 1) }
  | _ =>
    let sub := concatWith bld row
    let o := m.states.length
    let shifted := sub.states.map (shiftState o)
    let shifted2 := shifted.map (fun sd =>
      if sd.final then { addEpsTransition sd 1 with final := false } else sd)
    { m with states :=
        modifyState m.states 0 (fun sd => addEpsTransition sd (o + sub.start)) ++ shifted2 }

def altGo (bld : RegexCompiler.ExprNode → MNFA) :
    MNFA → List (List RegexCompiler.ExprNode) → MNFA
  | m, [] => m
  | m, row :: rest => altGo bld (addAltRow bld m row) rest

/-- `_build_alternation`: fresh start (id 0) and accept (id 1), then
one pass per alternative. -/
def altFrags (bld : RegexCompiler.ExprNode → MNFA)
    (alts : List (List RegexCompiler.ExprNode)) : MNFA :=
  altGo bld { states := [⟨false, [], []⟩, ⟨true, [], []⟩], start := 0, accept := 1 } alts

/-- `_apply_quantifier`: allocate a new start `n` and accept `n + 1`,
clear the old accept flag, and wire the epsilon edges of `?`, `*` or
`+`.  The leading guard mirrors `if not self.start_state`. -/
def applyQuantifier (m : MNFA) (q : Char) : MNFA :=
  if m.states.isEmpty then m else
  let n := m.states.length
  let sts0 := m.states ++ [⟨false, [], []⟩, ⟨true, [], []⟩]
  let sts1 := modifyState sts0 m.accept (fun sd => { sd with final := false })
  let sts2 :=
    if q = '?' then
      let a := modifyState sts1 n (fun sd => addEpsTransition sd m.start)
      let b := modifyState a n (fun sd => addEpsTransition sd (n + 1))
      modifyState b m.accept (fun sd => addEpsTransition sd (n + 1))
    else if q = '*' then
      let a := modifyState sts1 n (fun sd => addEpsTransition sd m.start)
      let b := modifyState a n (fun sd => addEpsTransition sd (n + 1))
      let c2 := modifyState b m.accept (fun sd => addEpsTransition sd n)
      modifyState c2 m.accept (fun sd => addEpsTransition sd (n + 1))
    else if q = '+' then
      let a := modifyState sts1 n (fun sd => addEpsTransition sd m.start)
      let b := modifyState a m.accept (fun sd => addEpsTransition sd m.start)
      modifyState b m.accept (fun sd => addEpsTransition sd (n + 1))
    else sts1
  { states := sts2, start := n, accept := n + 1 }

/-- `NFA.__init__` / `_build_nfa`: dispatch on the node kind, then
apply the quantifier when present.  The fuel bounds the AST depth;
`buildNFA` is only evaluated on concrete trees with ample fuel. -/
def buildNFA : Nat → RegexCompiler.ExprNode → MNFA
  | 0, _ => { states := [], start := 0, accept := 0 }
  | fuel + 1, node =>
    let bld := buildNFA fuel
    let m :=
      match node.ty with
      | .Char => charFrag node.value
      | .Any => anyFrag
      | .CharacterSet => altFrags bld node.children
      | .Range => rangeFrag node.rangeStart node.rangeEnd
      | .Root | .Group =>
        match node.children with
        | [] => epsFrag
        | r0 :: rest =>
          if r0.isEmpty then epsFrag
          else if rest.isEmpty then concatWith bld r0
          else altFrags bld node.children
    match node.quantifier with
    | some q => applyQuantifier m q
    | none => m

/-- The string Python prints for a label used as a dictionary key in
JSON output: `str(None)` is `"None"`, a string key is itself. -/
def labelStr : Label → List Char
  | some l => l
  | none => ['N', 'o', 'n', 'e']

/-- Python `str.split(" - ")`: leftmost, non-overlapping. -/
def splitDashAux : List Char → List Char → List (List Char)
  | ' ' :: '-' :: ' ' :: rest, acc => acc.reverse :: splitDashAux rest []
  | c :: rest, acc => splitDashAux rest (c :: acc)
  | [], acc => [acc.reverse]

def pySplitDash (s : List Char) : List (List Char) := splitDashAux s []

/-- The label-match test of `NFA.match` (lines 380-388): wildcard dot,
exact single-character label, escaped dot against a literal dot input,
or a range marker checked by code points.  The `ord` calls of the
range branch are only reachable with one-character parts for every
label the builder writes; other shapes yield no match. -/
def matchLabel (lab : Label) (c : Char) : Bool :=
  decide (lab = some ['.']) || decide (lab = some [c]) ||
  (decide (c = '.') && decide (lab = some ['\\', '\\', '.'])) ||
  (match pySplitDash (labelStr lab) with
   | [a, b] =>
     match a, b with
     | [x], [y] => decide (x.toNat ≤ c.toNat) && decide (c.toNat ≤ y.toNat)
     | _, _ => false
   | _ => false)

/-- `NFA._epsilon_closure` worklist (stack pops from the top, every
state enters the visited set once). -/
def epsClosureGo (sts : List StateData) : Nat → List Nat → List Nat → List Nat
  | 0, _, visited => visited
  | _ + 1, [], visited => visited
  | fuel + 1, s :: stack, visited =>
      let sd := sts.getD s emptyState
      let next := sd.eps.foldl
        (fun (acc : List Nat × List Nat) t =>
          if t ∈ acc.2 then acc else (t :: acc.1, acc.2 ++ [t]))
        (stack, visited)
      epsClosureGo sts fuel next.1 next.2

def epsClosure (m : MNFA) (seeds : List Nat) : List Nat :=
  epsClosureGo m.states (m.states.length + seeds.length + 1) seeds seeds

/-- One character step of `NFA.match`: collect the targets of every
matching labelled transition out of the current frontier. -/
def stepChar (m : MNFA) (cur : List Nat) (c : Char) : List Nat :=
  cur.foldl (fun acc s =>
    (m.states.getD s emptyState).trans.foldl (fun acc2 lt =>
      if matchLabel lt.1 c then lt.2.foldl (fun a t => insertNat t a) acc2 else acc2) acc) []

def matchGo (m : MNFA) : List Nat → List Char → Bool
  | cur, [] => cur.any (fun s => (m.states.getD s emptyState).final)
  | cur, c :: rest =>
      let nxt := epsClosure m (stepChar m cur c)
      if nxt.isEmpty then false else matchGo m nxt rest

/-- `NFA.match`: epsilon-close the start state, step per character,
reject on an empty frontier, accept when a final state remains.  The
leading guard mirrors `if not self.start_state`. -/
def nfaMatch (m : MNFA) (input : List Char) : Bool :=
  if m.states.isEmpty then false
  else matchGo m (epsClosure m [m.start]) input

/-- One state object of `NFA.to_json`: the `isTerminatingState` flag
plus the label keyed entries; the epsilon list is appended last under
the key `ε` when non-empty.  Scalar and list target forms carry the
same information for the loader, so both are a target list here. -/
structure StateJson where
  final : Bool
  entries : List (List Char × List Nat)
  deriving DecidableEq, Repr

/-- The whole JSON document: `startingState` plus one object per state
keyed `S<id>` in state-list order (ids are encoded by the number). -/
structure AutoJson where
  startName : Nat
  states : List (Nat × StateJson)
  deriving DecidableEq, Repr

/-- `NFA.to_json`.  For every automaton built here at most one of a
literal `ε` label key and a non-empty epsilon list occurs per state,
so writing the `ε` entry by appending matches the dictionary update of
the source. -/
def stateJsonOf (sd : StateData) : StateJson :=
  { final := sd.final,
    entries := sd.trans.map (fun lt => (labelStr lt.1, lt.2)) ++
      (if sd.eps.isEmpty then [] else [(['ε'], sd.eps)]) }

def toJson (m : MNFA) : AutoJson :=
  { startName := m.start,
    states := m.states.enum.map (fun isd => (isd.1, stateJsonOf isd.2)) }

end NFACore
namespace DFACore

open NFACore (getKV setKV insertNat)

/-- A loaded NFA state of `DFA.py` (`State`): the `isTerminatingState`
flag and the transition dictionary.  Keys are the raw JSON keys, so
epsilon edges live under the key `ε`; values are target positions
(parsed from the `S<id>` names). -/
structure LState where
  final : Bool
  trans : List (List Char × List Nat)
  deriving DecidableEq, Repr

def emptyL : LState := ⟨false, []⟩

/-- The loaded automaton (`DFA.__load_NFA_json`): the state list in
JSON order, the parsed name of `startingState`, the list position of
`final_state` (the last state seen with a true flag), and the `actions`
list (one append per non-`ε` key occurrence, duplicates kept). -/
structure LoadedNFA where
  states : List LState
  startName : Nat
  finalIdx : Option Nat
  actions : List (List Char)
  deriving DecidableEq, Repr

def modifyL (sts : List LState) (i : Nat) (f : LState → LState) : List LState :=
  sts.set i (f (sts.getD i emptyL))

/-- Feed the targets of one JSON entry to `add_transition` one by
one. -/
def addEntryTargets (tr : List (List Char × List Nat)) (key : List Char) (ts : List Nat) :
    List (List Char × List Nat) :=
  ts.foldl (fun tr2 t => NFACore.addToTrans tr2 key t) tr

def addEntries (tr : List (List Char × List Nat))
    (entries : List (List Char × List Nat)) : List (List Char × List Nat) :=
  entries.foldl (fun tr2 ent => addEntryTargets tr2 ent.1 ent.2) tr

/-- The transition-adding body of the second loader loop for one JSON
state object: every `(key, targets)` entry is fed to `add_transition`
target by target on the state stored at the parsed name (only the
transition dictionary of that state changes). -/
def processEntries (ls : LState) (sj : NFACore.StateJson) : LState :=
  { ls with trans := addEntries ls.trans sj.entries }

/-- `DFA.__load_NFA_json`: first create all states in JSON order
(recording the last final one), then add the transitions of each JSON
object to the state at the position given by its name, and collect the
non-`ε` action keys in encounter order. -/
def loadNFA (j : NFACore.AutoJson) : LoadedNFA :=
  let base : List LState := j.states.map (fun ns => { final := ns.2.final, trans := [] })
  let finalIdx : Option Nat :=
    ((j.states.enum.filter (fun p => p.2.2.final)).map (·.1)).getLast?
  let sts := j.states.foldl (fun s ns => modifyL s ns.1 (fun ls => processEntries ls ns.2)) base
  let actions := j.states.foldl (fun acc ns =>
    acc ++ ((ns.2.entries.filter (fun ent => ¬(ent.1 = ['ε']))).map (·.1))) []
  { states := sts, startName := j.startName, finalIdx := finalIdx, actions := actions }

/-- The labelled (non-epsilon) edges of a loaded state, lifted back to
`NFA.py` labels for comparison with the exported automaton. -/
def loadedLabeled (ls : LState) : List (NFACore.Label × List Nat) :=
  (ls.trans.filter (fun ent => ¬(ent.1 = ['ε']))).map (fun ent => (some ent.1, ent.2))

/-- The epsilon edges of a loaded state: the entry under the key `ε`
(this is how `DFA.__epsilon_closure` reads them back). -/
def loadedEps (ls : LState) : List Nat :=
  (getKV ls.trans ['ε']).getD []

/-- A reference to a loaded NFA state object.  `DFA.__load_NFA_json`
allocates a fresh `State` for `startingState` that is distinct from
the list entry of the same name and has an empty transition dictionary;
`fresh` is that object, `idx n` the list entry at position `n`. -/
inductive Ref where
  | fresh
  | idx (n : Nat)
  deriving DecidableEq, Repr

/-- The integer id carried by a reference (`int(state.id[1:])`). -/
def refIdx (sn : Nat) : Ref → Nat
  | .fresh => sn
  | .idx n => n

/-- `DFA.__epsilon_closure`: worklist over references.  Each popped
reference is re-resolved through `nfa.states[int(id[1:])]`, so the
fresh start object is looked up by name here (unlike in
`getReachableStates`); targets of `ε`-keyed entries not yet seen are
pushed as list references. -/
def dfaEpsClosureGo (nfa : LoadedNFA) : Nat → List Ref → List Ref → List Ref
  | 0, _, visited => visited
  | _ + 1, [], visited => visited
  | fuel + 1, r :: stack, visited =>
      let sd := nfa.states.getD (refIdx nfa.startName r) emptyL
      let next := sd.trans.foldl (fun acc ent =>
        ent.2.foldl (fun (acc2 : List Ref × List Ref) t =>
          if Ref.idx t ∈ acc2.2 ∨ ¬(ent.1 = ['ε']) then acc2
          else (Ref.idx t :: acc2.1, acc2.2 ++ [Ref.idx t])) acc) (stack, visited)
      dfaEpsClosureGo nfa fuel next.1 next.2

def dfaEpsClosure (nfa : LoadedNFA) (seed : Ref) : List Ref :=
  dfaEpsClosureGo nfa (nfa.states.length + 2) [seed] [seed]

/-- The in-place `|=` on one stored target set: the state keeps its
flag and dictionary, with the set under `action` replaced by the
enlarged one. -/
def mutTrans (action : List Char) (ts2 : List Nat) (ls : LState) : LState :=
  { ls with trans := setKV ls.trans action ts2 }

def grTargets (nfa : LoadedNFA) (ts : List Nat) : List Nat :=
  let next := ts.foldl (fun nx t =>
    (dfaEpsClosure nfa (Ref.idx t)).foldl (fun nx2 rr =>
      match rr with
      | Ref.idx k => insertNat k nx2
      | Ref.fresh => nx2) nx) []
  next.foldl (fun l t => insertNat t l) ts

def grStep (action : List Char) (acc : List Nat × LoadedNFA) (r : Ref) :
    List Nat × LoadedNFA :=
  match r with
  | .fresh => acc
  | .idx n =>
    match getKV (acc.2.states.getD n emptyL).trans action with
    | none => acc
    | some ts =>
        let ts2 := grTargets acc.2 ts
        (ts2.foldl (fun l t => insertNat t l) acc.1,
         { acc.2 with states := modifyL acc.2.states n (mutTrans action ts2) })

/-- `DFA.__get_reachable_states`, with the mutated automaton threaded
through: reading `nfa_state.transitions[action]` yields the stored set
object, and `curr_reachable_states |= next_reachable_states` enlarges
that stored set in place, so the function returns the updated automaton
together with the reachable ids.  The fresh start object has an empty
transition dictionary and contributes nothing. -/
def getReachableStates (nfa : LoadedNFA) (refs : List Ref) (action : List Char) :
    List Nat × LoadedNFA :=
  refs.foldl (grStep action) ([], nfa)

/-- One DFA state (`DFA_State`): the set of subsumed NFA state
objects, in discovery order. -/
structure DState where
  refs : List Ref
  deriving DecidableEq, Repr

/-- Sorted duplicate-free insertion, used to resolve the enumeration
order of a Python set of ids canonically. -/
def insortDedup (x : Nat) : List Nat → List Nat
  | [] => [x]
  | y :: rest =>
      if x < y then x :: y :: rest
      else if x = y then y :: rest
      else y :: insortDedup x rest

/-- The identity key of a `DFA_State`: the set of carried ids
(`{s.id for s in self.states}`), resolved to its sorted enumeration.
Two model states are the same DFA state exactly when these lists are
equal, which matches the source whenever equal Python sets enumerate
in the same order (see `set_to_string` and claim C3 for the caveat). -/
def canonIds (sn : Nat) (refs : List Ref) : List Nat :=
  refs.foldl (fun acc r => insortDedup (refIdx sn r) acc) []

/-- `DFA_State.set_to_string` on one enumeration of the id set: the
space-joined ids in the enumeration order the Python set iterator
happens to produce. -/
def set_to_string (ids : List String) : String :=
  String.intercalate " " ids

/-- The evolving state of `DFA.__construct_DFA`. -/
structure DFABuild where
  nfa : LoadedNFA
  dstates : List DState
  startD : DState
  finals : List (List Nat)
  transitions : List (List Nat × List Nat × List Char)
  stack : List DState
  deriving Repr

/-- The `for action in self.actions` body of `__construct_DFA` for one
popped DFA state: build the reachable set (mutating the NFA), skip
empty sets, register genuinely new DFA states (marking them accepting
exactly when the `final_state` object is among their members — the
start state never gets this check), and record the transition. -/
def processActions (b : DFABuild) (cur : DState) : List (List Char) → DFABuild
  | [] => b
  | action :: rest =>
      let ra := getReachableStates b.nfa cur.refs action
      let b2 := { b with nfa := ra.2 }
      if ra.1.isEmpty then processActions b2 cur rest
      else
        let newRefs : List Ref := ra.1.map Ref.idx
        let sn := ra.2.startName
        let newCanon := canonIds sn newRefs
        let b3 :=
          if b2.dstates.any (fun s => decide (canonIds sn s.refs = newCanon)) then b2
          else
            let isF := match ra.2.finalIdx with
              | some f => decide (Ref.idx f ∈ newRefs)
              | none => false
            { b2 with dstates := b2.dstates ++ [⟨newRefs⟩],
                      stack := ⟨newRefs⟩ :: b2.stack,
                      finals := if isF then b2.finals ++ [newCanon] else b2.finals }
        let curCanon := canonIds sn cur.refs
        let b4 :=
          if (curCanon, newCanon, action) ∈ b3.transitions then b3
          else { b3 with transitions := b3.transitions ++ [(curCanon, newCanon, action)] }
        processActions b4 cur rest

/-- The worklist loop of `__construct_DFA`. -/
def constructLoop : Nat → DFABuild → DFABuild
  | 0, b => b
  | fuel + 1, b =>
      match b.stack with
      | [] => b
      | cur :: rest =>
          constructLoop fuel (processActions { b with stack := rest } cur b.nfa.actions)

/-- `DFA.__construct_DFA`: load the JSON, make the epsilon closure of
the fresh start object the start DFA state (without an accepting-state
check), and run the worklist. -/
def constructDFA (j : NFACore.AutoJson) (fuel : Nat) : DFABuild :=
  let nfa := loadNFA j
  let startD : DState := ⟨dfaEpsClosure nfa Ref.fresh⟩
  constructLoop fuel
    { nfa := nfa, dstates := [startD], startD := startD,
      finals := [], transitions := [], stack := [startD] }

/-- Modelled from the spec: acceptance of a word by the DFA transition
relation from the start state (`DFA.py` has no `match` method; the
specification asserts `DFA(R).match(s)` and claim C1 reads it as
acceptance by the transition relation, with labels matched against
input characters by the label-match rule of the NFA simulator). -/
def dfaStep (b : DFABuild) (curs : List (List Nat)) (c : Char) : List (List Nat) :=
  b.transitions.foldl (fun acc tr =>
    if tr.1 ∈ curs ∧ NFACore.matchLabel (some tr.2.2) c then
      if tr.2.1 ∈ acc then acc else acc ++ [tr.2.1]
    else acc) []

def dfaAccepts (b : DFABuild) (input : List Char) : Bool :=
  let startC := canonIds b.nfa.startName b.startD.refs
  let finalCurs := input.foldl (dfaStep b) [startC]
  finalCurs.any (fun s => s ∈ b.finals)

/-- `DFA.__create_transition_table`: later assignments to the same
`(state, action)` cell overwrite earlier ones, and every DFA state
gets a row (an empty one when it has no outgoing transitions). -/
def transitionTable (b : DFABuild) :
    List (List Nat × List (List Char × List Nat)) :=
  let t1 := b.transitions.foldl (fun acc tr =>
    setKV acc tr.1 (setKV ((getKV acc tr.1).getD []) tr.2.2 tr.2.1)) []
  b.dstates.foldl (fun acc ds =>
    let k := canonIds b.nfa.startName ds.refs
    if (getKV acc k).isSome then acc else acc ++ [(k, [])]) t1

end DFACore

namespace DFACore

open NFACore (getKV setKV)

/-- Outcome of `DFA.__split_states`: the two partition maps, the
`IndexError` raised by `list(curr_states)[0]` on an empty group, or
exhausted fuel. -/
inductive SplitRes where
  | ok (s2g : List (List Nat × Nat)) (g2s : List (Nat × List (List Nat)))
  | indexError
  | noFuel
  deriving DecidableEq, Repr

def addUniqueC (x : List Nat) (l : List (List Nat)) : List (List Nat) :=
  if x ∈ l then l else l ++ [x]

/-- The running state of `__split_states`: `state_to_group`,
`group_to_state`, `num_of_groups` and the stack of groups (each group
a list of DFA-state identity keys). -/
structure SplitSt where
  s2g : List (List Nat × Nat)
  g2s : List (Nat × List (List Nat))
  numGroups : Nat
  stack : List (List (List Nat))
  deriving Repr

/-- The split decision of `__split_states` for one `state` of the
popped group under one `action`, mutating the partition maps and the
`new_states` accumulator. -/
def splitOne (tbl : List (List Nat × List (List Char × List Nat))) (numGroups : Nat)
    (currTarget : Option (List Nat)) (targetGroup : Option Nat) (action : List Char)
    (acc : List (List Nat × Nat) × List (Nat × List (List Nat)) × List (List Nat))
    (state : List Nat) :
    List (List Nat × Nat) × List (Nat × List (List Nat)) × List (List Nat) :=
  let targetState : Option (List Nat) := getKV ((getKV tbl state).getD []) action
  let group : Nat := (getKV acc.1 state).getD 0
  if (currTarget = none ∨ targetState = none) ∧ targetState = currTarget then acc
  else
    let splits : Bool :=
      match targetState with
      | none => true
      | some t => decide (getKV acc.1 t ≠ targetGroup)
    if splits then
      let s2g2 := setKV acc.1 state numGroups
      let removed := ((getKV acc.2.1 group).getD []).filter (fun x => ¬(x = state))
      let g2s2 := setKV acc.2.1 group removed
      let g2s3 := if (getKV g2s2 numGroups).isSome then g2s2 else g2s2 ++ [(numGroups, [])]
      let g2s4 := setKV g2s3 numGroups (addUniqueC state ((getKV g2s3 numGroups).getD []))
      (s2g2, g2s4, addUniqueC state acc.2.2)
    else acc

/-- The `while stack` loop of `__split_states`.  The representative of
the popped group is its first element; popping an empty group raises
`IndexError`.  `new_states` accumulates across the action loop of one
pop, the modified group and the new group are pushed back when a split
happened, and `num_of_groups` grows by one per splitting pop. -/
def splitLoop (actions : List (List Char))
    (tbl : List (List Nat × List (List Char × List Nat))) :
    Nat → SplitSt → SplitRes
  | 0, _ => .noFuel
  | fuel + 1, st =>
      match st.stack with
      | [] => .ok st.s2g st.g2s
      | g :: rest =>
          match g.head? with
          | none => .indexError
          | some rep =>
              let res := actions.foldl (fun acc action =>
                let currTarget : Option (List Nat) :=
                  getKV ((getKV tbl rep).getD []) action
                let targetGroup : Option Nat :=
                  currTarget.bind (fun t => getKV acc.1 t)
                g.foldl (splitOne tbl st.numGroups currTarget targetGroup action) acc)
                (st.s2g, st.g2s, ([] : List (List Nat)))
              let newSt := res.2.2
              let currFiltered := g.filter (fun s => ¬(s ∈ newSt))
              if newSt.isEmpty then
                splitLoop actions tbl fuel
                  { s2g := res.1, g2s := res.2.1, numGroups := st.numGroups, stack := rest }
              else
                splitLoop actions tbl fuel
                  { s2g := res.1, g2s := res.2.1, numGroups := st.numGroups + 1,
                    stack := newSt :: currFiltered :: rest }

/-- The initial partition of `__split_states`: group 1 the accepting
states, group 0 the rest; both groups are put on the stack whether or
not they are empty, the accepting group on top. -/
def splitInit (b : DFABuild) : SplitSt :=
  let canons := b.dstates.map (fun ds => canonIds b.nfa.startName ds.refs)
  { s2g := canons.map (fun c => (c, if c ∈ b.finals then 1 else 0)),
    g2s := [(0, canons.filter (fun c => ¬(c ∈ b.finals))),
            (1, canons.filter (fun c => c ∈ b.finals))],
    numGroups := 2,
    stack := [canons.filter (fun c => c ∈ b.finals),
              canons.filter (fun c => ¬(c ∈ b.finals))] }

/-- `DFA.__split_states` applied to a constructed DFA. -/
def splitStates (b : DFABuild) (fuel : Nat) : SplitRes :=
  splitLoop b.nfa.actions (transitionTable b) fuel (splitInit b)

/-- Pointwise containment of stored labelled-transition target sets:
every entry of `a` is present in `b` under the same state position and
key, with a target set containing the one of `a`. -/
def transLe (a b : LoadedNFA) : Prop :=
  ∀ n key ts, NFACore.getKV ((a.states.getD n emptyL)).trans key = some ts →
    ∃ ts2, NFACore.getKV ((b.states.getD n emptyL)).trans key = some ts2 ∧ ts ⊆ ts2

end DFACore

namespace Pipeline

/-- The AST of a regex accepted by the parser (a bare root node
otherwise; every regex used below parses). -/
def astOf (s : List Char) : RegexCompiler.ExprNode :=
  match RegexCompiler.RegularCompiler s with
  | .ok a => a
  | _ => .mk .Root none none none none []

/-- `regex_to_nfa` of `NFA.py`. -/
def compileNFA (s : List Char) : NFACore.MNFA :=
  NFACore.buildNFA 50 (astOf s)

/-- The `nfa.json` handoff of the command line flow: compile a regex,
export the NFA to JSON, reload it and run subset construction. -/
def pipelineDFA (s : List Char) (fuel : Nat) : DFACore.DFABuild :=
  DFACore.constructDFA (NFACore.toJson (compileNFA s)) fuel

end Pipeline

namespace RoundTrip

open NFACore DFACore

/-- The labelled-transition multigraph view of a built NFA: per state,
its labelled edges, epsilon edges and accept flag. -/
def origView (m : MNFA) : List (List (Label × List Nat) × List Nat × Bool) :=
  m.states.map (fun sd => (sd.trans, sd.eps, sd.final))

/-- The same view of a reloaded automaton: the non-`ε` entries are the
labelled edges (their keys read back as labels), the `ε` entry the
epsilon edges. -/
def loadedView (nfa : LoadedNFA) : List (List (Label × List Nat) × List Nat × Bool) :=
  nfa.states.map (fun ls => (loadedLabeled ls, loadedEps ls, ls.final))

/-- Exact round trip: exporting with `to_json` and re-loading yields
the identical multigraph (under the `S<id>`-to-position renaming) and
the identical start state. -/
def roundTripExact (m : MNFA) : Prop :=
  loadedView (loadNFA (toJson m)) = origView m ∧
  (loadNFA (toJson m)).startName = m.start

/-- Well-formedness of one built NFA state as the builder guarantees
it: the transition dictionary has no duplicate keys, every target set
is a non-empty duplicate-free list, and no label is `None` or the
literal character `ε` (the two shapes the JSON key space conflates). -/
def wfState (sd : StateData) : Prop :=
  (sd.trans.map (fun lt => lt.1)).Nodup ∧
  (∀ lt ∈ sd.trans, lt.2 ≠ [] ∧ lt.2.Nodup ∧ lt.1 ≠ none ∧ lt.1 ≠ some ['ε']) ∧
  sd.eps.Nodup

def wfNFA (m : MNFA) : Prop := ∀ sd ∈ m.states, wfState sd

end RoundTrip

namespace RegexCompiler

lemma get?_some_lt {e : List Char} {p : Nat} {c : Char} (h : e.get? p = some c) :
    p < e.length := by
  by_contra hh
  rw [List.get?_eq_none.mpr (Nat.le_of_not_lt hh)] at h
  exact Option.noConfusion h

lemma parseRange_inr {e : List Char} {p : Nat} {n : ExprNode} {q : Nat}
    (h : parseRange e p = some (Sum.inr (n, q))) : q = p + 3 ∧ p + 2 < e.length := by
  unfold parseRange at h
  split at h
  case _ a b hb ha hmid =>
    split at h
    · exact absurd h (by simp)
    · refine ⟨?_, get?_some_lt hmid⟩
      injection h with h2
      injection h2 with h3
      injection h3 with h4 h5
      omega
  case _ => exact Option.noConfusion h

lemma assignQuantifier_le (e : List Char) (n : ExprNode) (p : Nat) :
    p ≤ (assignQuantifier e n p).2 := by
  unfold assignQuantifier
  split_ifs <;> simp

lemma parseChar_le (e : List Char) (p : Nat) : p ≤ (parseChar e p).2 := by
  unfold parseChar
  cases e.get? p <;> simp

lemma parseChar_snd_of_some {e : List Char} {p : Nat} {c : Char}
    (h : e.get? p = some c) : (parseChar e p).2 = p + 1 := by
  unfold parseChar
  rw [h]

/-- Every successful pass through the set-parsing loop only moves the
cursor forward. -/
lemma parseSetLoop_le (e : List Char) : ∀ (fuel p : Nat) (esc : Bool)
    (acc : List (List ExprNode)) {r : List (List ExprNode)} {q : Nat},
    parseSetLoop e fuel p esc acc = .ok (r, q) → p ≤ q := by
  intro fuel
  induction fuel with
  | zero => intro p esc acc r q h; exact absurd h (by simp [parseSetLoop])
  | succ f ih =>
    intro p esc acc r q h
    unfold parseSetLoop at h
    cases hc : e.get? p with
    | none => rw [hc] at h; injection h with h1; injection h1 with _ h2; omega
    | some c =>
      rw [hc] at h
      simp only at h
      split_ifs at h with h1 h2 h3
      · exact le_trans (Nat.le_succ p) (ih (p + 1) true acc h)
      · cases hr : parseRange e p with
        | none =>
          rw [hr] at h
          have := ih (parseChar e p).2 false (acc ++ [[(parseChar e p).1]]) h
          exact le_trans (parseChar_le e p) this
        | some v =>
          rw [hr] at h
          cases v with
          | inl q0 => exact absurd h (by simp)
          | inr nq =>
            obtain ⟨hq, _⟩ := parseRange_inr hr
            have := ih nq.2 false (acc ++ [[nq.1]]) h
            omega
      · injection h with h1; injection h1 with _ h2; omega
      · cases hr : parseRange e p with
        | none =>
          rw [hr] at h
          have := ih (parseChar e p).2 false (acc ++ [[(parseChar e p).1]]) h
          exact le_trans (parseChar_le e p) this
        | some v =>
          rw [hr] at h
          cases v with
          | inl q0 => exact absurd h (by simp)
          | inr nq =>
            obtain ⟨hq, _⟩ := parseRange_inr hr
            have := ih nq.2 false (acc ++ [[nq.1]]) h
            omega

/-- With fuel exceeding the number of unread characters, the
set-parsing loop never runs out of fuel. -/
lemma parseSetLoop_noFuel (e : List Char) : ∀ (fuel p : Nat) (esc : Bool)
    (acc : List (List ExprNode)), e.length - p < fuel →
    parseSetLoop e fuel p esc acc ≠ .noFuel := by
  intro fuel
  induction fuel with
  | zero => intro p esc acc hf; omega
  | succ f ih =>
    intro p esc acc hf
    unfold parseSetLoop
    cases hc : e.get? p with
    | none => simp
    | some c =>
      have hp : p < e.length := get?_some_lt hc
      simp only
      split_ifs with h1 h2 h3
      · exact ih (p + 1) true acc (by omega)
      · cases hr : parseRange e p with
        | none =>
          have hpc : (parseChar e p).2 = p + 1 := parseChar_snd_of_some hc
          simp only
          rw [hpc]
          exact ih (p + 1) false _ (by omega)
        | some v =>
          cases v with
          | inl q0 => simp
          | inr nq =>
            obtain ⟨hq, hlt⟩ := parseRange_inr hr
            simp only
            rw [hq]
            exact ih (p + 3) false _ (by omega)
      · simp
      · cases hr : parseRange e p with
        | none =>
          have hpc : (parseChar e p).2 = p + 1 := parseChar_snd_of_some hc
          simp only
          rw [hpc]
          exact ih (p + 1) false _ (by omega)
        | some v =>
          cases v with
          | inl q0 => simp
          | inr nq =>
            obtain ⟨hq, hlt⟩ := parseRange_inr hr
            simp only
            rw [hq]
            exact ih (p + 3) false _ (by omega)

end RegexCompiler

namespace RegexCompiler

/-- Every successful pass through the group-parsing loop only moves the
cursor forward. -/
lemma parseGroupLoop_le (e : List Char) : ∀ (fuel p : Nat) (isRoot : Bool)
    (rows : List (List ExprNode)) (cur : List ExprNode)
    {r : List (List ExprNode)} {q : Nat},
    parseGroupLoop e fuel p isRoot rows cur = .ok (r, q) → p ≤ q := by
  intro fuel
  induction fuel with
  | zero => intro p isRoot rows cur r q h; exact absurd h (by simp [parseGroupLoop])
  | succ f ih =>
    intro p isRoot rows cur r q h
    unfold parseGroupLoop at h
    cases hc : e.get? p with
    | none => rw [hc] at h; injection h with ha; injection ha with _ hb; omega
    | some c =>
      rw [hc] at h
      simp only at h
      split_ifs at h with h1 h2 h3 h4 h5 h6 h7 h8 <;>
        first
          | (simp at h; done)
          | (injection h with ha; injection ha with hb hcq; omega)
          | (have hx := ih _ _ _ _ h
             have hy2 := parseChar_le e p
             have hy := parseChar_le e (p + 1)
             have hz1 := assignQuantifier_le e (parseChar e (p + 1)).1 (parseChar e (p + 1)).2
             have hz2 := assignQuantifier_le e (parseChar e p).1 (parseChar e p).2
             have hz3 := assignQuantifier_le e (.mk .Any none none none none []) (p + 1)
             omega)
          | skip
      · -- branch: c = '(' , recursive group
        cases hg : parseGroupLoop e f (p + 1) false [] [] with
        | noFuel => rw [hg] at h; exact absurd h (by simp)
        | err q0 => rw [hg] at h; exact absurd h (by simp)
        | ok v =>
          rw [hg] at h
          obtain ⟨chrows, q0⟩ := v
          have hq0 : p + 1 ≤ q0 := ih (p + 1) false [] [] hg
          simp only at h
          split_ifs at h with hcl
          · have hx := ih _ isRoot rows _ h
            have hy := assignQuantifier_le e (.mk .Group none none none none chrows) (q0 + 1)
            omega
      · -- branch: c = '[' , character set
        cases hs : parseSetLoop e f (p + 1) false [] with
        | noFuel => rw [hs] at h; exact absurd h (by simp)
        | err q0 => rw [hs] at h; exact absurd h (by simp)
        | ok v =>
          rw [hs] at h
          obtain ⟨items, q0⟩ := v
          have hq0 : p + 1 ≤ q0 := parseSetLoop_le e f (p + 1) false [] hs
          simp only at h
          split_ifs at h with hcl
          · have hx := ih _ isRoot rows _ h
            have hy := assignQuantifier_le e (.mk .CharacterSet none none none none items) (q0 + 1)
            omega

/-- With fuel exceeding the number of unread characters, the
group-parsing loop never runs out of fuel. -/
lemma parseGroupLoop_noFuel (e : List Char) : ∀ (fuel p : Nat) (isRoot : Bool)
    (rows : List (List ExprNode)) (cur : List ExprNode), e.length - p < fuel →
    parseGroupLoop e fuel p isRoot rows cur ≠ .noFuel := by
  intro fuel
  induction fuel with
  | zero => intro p isRoot rows cur hf; omega
  | succ f ih =>
    intro p isRoot rows cur hf
    unfold parseGroupLoop
    cases hc : e.get? p with
    | none => simp
    | some c =>
      have hp : p < e.length := get?_some_lt hc
      simp only
      split_ifs with h1 h2 h3 h4 h5 h6 h7 h8 <;>
        first
          | (simp; done)
          | (have hy2 := parseChar_le e p
             have hpc := parseChar_snd_of_some hc
             have hy := parseChar_le e (p + 1)
             have hz1 := assignQuantifier_le e (parseChar e (p + 1)).1 (parseChar e (p + 1)).2
             have hz2 := assignQuantifier_le e (parseChar e p).1 (parseChar e p).2
             have hz3 := assignQuantifier_le e (.mk .Any none none none none []) (p + 1)
             apply ih
             omega)
          | skip
      · -- branch: c = '(' , recursive group
        cases hg : parseGroupLoop e f (p + 1) false [] [] with
        | noFuel => exact absurd hg (ih (p + 1) false [] [] (by omega))
        | err q0 => simp
        | ok v =>
          obtain ⟨chrows, q0⟩ := v
          have hq0 : p + 1 ≤ q0 := parseGroupLoop_le e f (p + 1) false [] [] hg
          simp only
          split_ifs with hcl
          · have hy := assignQuantifier_le e (.mk .Group none none none none chrows) (q0 + 1)
            apply ih
            omega
          · simp
      · -- branch: c = '[' , character set
        cases hs : parseSetLoop e f (p + 1) false [] with
        | noFuel => exact absurd hs (parseSetLoop_noFuel e f (p + 1) false [] (by omega))
        | err q0 => simp
        | ok v =>
          obtain ⟨items, q0⟩ := v
          have hq0 : p + 1 ≤ q0 := parseSetLoop_le e f (p + 1) false [] hs
          simp only
          split_ifs with hcl
          · have hy := assignQuantifier_le e (.mk .CharacterSet none none none none items) (q0 + 1)
            apply ih
            omega
          · simp

end RegexCompiler

namespace RegexCompiler

/-- C10: the parser terminates on every input string: with fuel one more
than the input length the fuel is never exhausted, so `RegularCompiler`
always either returns an AST or raises a syntax error. -/
theorem RegularCompiler_total (e : List Char) :
    (∃ ast, RegularCompiler e = .ok ast) ∨ (∃ q, RegularCompiler e = .err q) := by
  unfold RegularCompiler
  cases hg : parseGroupLoop e (e.length + 1) 0 true [] [] with
  | noFuel => exact absurd hg (parseGroupLoop_noFuel e (e.length + 1) 0 true [] [] (by omega))
  | err q => exact Or.inr ⟨q, rfl⟩
  | ok v => obtain ⟨rows, q⟩ := v; exact Or.inl ⟨_, rfl⟩

/-- C6: contrary to the specification, a regex ending in a single
unescaped backslash does not raise; the parser returns a complete AST
whose only atom is a `Char` node with value `None` (the silent `_eat`
failure at end of input). -/
theorem c6_trailing_backslash_returns_ast :
    RegularCompiler ['\\'] =
      .ok (.mk .Root none none none none [[.mk .Char none none none none []]]) := rfl

/-- C7: contrary to the specification, an escaped character inside a
character set does not lose its range-meta interpretation: parsing the
set of the regex `[\a-z]` consumes the escaped `a` as the start of an
`a-z` `Range` node instead of producing a literal `Char` node. -/
theorem c7_escaped_set_char_consumed_as_range :
    RegularCompiler ['[', '\\', 'a', '-', 'z', ']'] =
      .ok (.mk .Root none none none none
        [[.mk .CharacterSet none none none none
          [[.mk .Range none none (some 97) (some 122) []]]]]) := rfl

end RegexCompiler

/-- C1: the three automata do not give the same answer on every input.
On the regex consisting of the single literal `a` the NFA matches the
string `a`, but the DFA built from the exported JSON does not accept
it: the loader's fresh start object carries no transitions, so the
start DFA state has no outgoing `a` edge and the DFA has no accepting
state at all. -/
theorem c1_language_equivalence_fails :
    NFACore.nfaMatch (Pipeline.compileNFA ['a']) ['a'] = true ∧
    DFACore.dfaAccepts (Pipeline.pipelineDFA ['a'] 10) ['a'] = false ∧
    (Pipeline.pipelineDFA ['a'] 10).transitions = [] ∧
    (Pipeline.pipelineDFA ['a'] 10).finals = [] :=
  ⟨rfl, rfl, rfl, rfl⟩

/-- C2: the start DFA state is never marked accepting.  For the empty
regex the start state's member set contains the loaded accept state
(list position 1), yet the set of accepting DFA states stays empty. -/
theorem c2_start_state_never_marked_accepting :
    (Pipeline.pipelineDFA [] 10).nfa.finalIdx = some 1 ∧
    DFACore.Ref.idx 1 ∈ (Pipeline.pipelineDFA [] 10).startD.refs ∧
    (Pipeline.pipelineDFA [] 10).finals = [] :=
  ⟨rfl, by decide, rfl⟩

/-- C5: when the accepting set is empty, minimization does not drop
the empty group; `list(curr_states)[0]` raises `IndexError` on the
first pop.  The regex `a` produces such a DFA (no accepting states,
see C1/C2), and the partition split fails on it. -/
theorem c5_split_raises_on_empty_accepting_group :
    (Pipeline.pipelineDFA ['a'] 10).finals = [] ∧
    DFACore.splitStates (Pipeline.pipelineDFA ['a'] 10) 10 = .indexError :=
  ⟨rfl, rfl⟩

/-- C3 counterexample: the identity key of a DFA state is the
space-join of the id set in the order the set enumeration happens to
produce; it is not canonical, since two enumerations of the same set
yield different keys. -/
theorem c3_counterexample :
    ["S2", "S1"].Perm ["S1", "S2"] ∧
    DFACore.set_to_string ["S2", "S1"] ≠ DFACore.set_to_string ["S1", "S2"] := by
  refine ⟨by decide, by decide⟩

/-- C4 counterexample: reloading the exported NFA of the regex
consisting of the literal character `ε` does not reproduce the
multigraph: the `ε`-labelled edge written by `to_json` is read back as
an epsilon edge, so the loaded automaton has an epsilon edge where the
original has none. -/
theorem c4_counterexample :
    ¬ RoundTrip.roundTripExact (Pipeline.compileNFA ['ε']) := by
  unfold RoundTrip.roundTripExact
  decide

/-- C8: an unescaped dot parses to an `Any` node whose NFA label is
the one-character wildcard string that matches every input character,
while an escaped dot parses to a `Char` node with value `.` whose NFA
label is the three-character escaped-dot marker matching exactly the
literal dot; the two labels are distinct strings. -/
theorem c8_wildcard_vs_escaped_dot :
    RegexCompiler.RegularCompiler ['.'] =
      .ok (.mk .Root none none none none [[.mk .Any none none none none []]]) ∧
    RegexCompiler.RegularCompiler ['\\', '.'] =
      .ok (.mk .Root none none none none [[.mk .Char (some '.') none none none []]]) ∧
    Pipeline.compileNFA ['.'] =
      ⟨[⟨false, [(some ['.'], [1])], []⟩, ⟨true, [], []⟩], 0, 1⟩ ∧
    Pipeline.compileNFA ['\\', '.'] =
      ⟨[⟨false, [(some ['\\', '\\', '.'], [1])], []⟩, ⟨true, [], []⟩], 0, 1⟩ ∧
    (∀ c : Char, NFACore.matchLabel (some ['.']) c = true) ∧
    (∀ c : Char, NFACore.matchLabel (some ['\\', '\\', '.']) c = true ↔ c = '.') ∧
    (['.'] : List Char) ≠ ['\\', '\\', '.'] := by
  refine ⟨rfl, rfl, rfl, rfl, ?_, ?_, by decide⟩
  · intro c
    simp [NFACore.matchLabel]
  · intro c
    simp [NFACore.matchLabel, NFACore.labelStr, NFACore.pySplitDash, NFACore.splitDashAux]


namespace DFACore

open NFACore (getKV setKV insertNat)

lemma getKV_setKV_self {κ β : Type} [DecidableEq κ] :
    ∀ (l : List (κ × β)) (k : κ) (v : β), getKV (setKV l k v) k = some v := by
  intro l k v
  induction l with
  | nil => simp [setKV, getKV]
  | cons h t ih =>
    obtain ⟨k0, v0⟩ := h
    simp only [setKV]
    split_ifs with hk
    · simp [getKV, hk]
    · simp [getKV, hk, ih]

lemma getKV_setKV_ne {κ β : Type} [DecidableEq κ] :
    ∀ (l : List (κ × β)) (k k' : κ) (v : β), k' ≠ k →
      getKV (setKV l k v) k' = getKV l k' := by
  intro l k k' v hne
  induction l with
  | nil => simp [setKV, getKV, Ne.symm hne]
  | cons h t ih =>
    obtain ⟨k0, v0⟩ := h
    simp only [setKV]
    split_ifs with hk
    · subst hk
      simp [getKV, Ne.symm hne]
    · simp [getKV, ih]

lemma getD_set_ne : ∀ (sts : List LState) (n n' : Nat) (v : LState), n' ≠ n →
    (sts.set n v).getD n' emptyL = sts.getD n' emptyL := by
  intro sts
  induction sts with
  | nil => intro n n' v _; simp
  | cons h t ih =>
    intro n n' v hne
    cases n with
    | zero =>
      cases n' with
      | zero => exact absurd rfl hne
      | succ m => simp
    | succ k =>
      cases n' with
      | zero => simp
      | succ m =>
        have hrec := ih k m v (fun hh => hne (by omega))
        simpa using hrec

lemma getD_set_self : ∀ (sts : List LState) (n : Nat) (v : LState), n < sts.length →
    (sts.set n v).getD n emptyL = v := by
  intro sts
  induction sts with
  | nil => intro n v h; simp at h
  | cons h t ih =>
    intro n v hn
    cases n with
    | zero => simp
    | succ k =>
      have hrec := ih k v (by simpa using hn)
      simpa using hrec

lemma lookup_lt_length {sts : List LState} {n : Nat} {key : List Char} {ts : List Nat}
    (h : getKV ((sts.getD n emptyL)).trans key = some ts) : n < sts.length := by
  by_contra hn
  rw [List.getD_eq_default _ _ (Nat.le_of_not_lt hn)] at h
  simp [emptyL, getKV] at h

lemma subset_foldl_insertNat : ∀ (next l : List Nat),
    l ⊆ next.foldl (fun acc t => insertNat t acc) l := by
  intro next
  induction next with
  | nil => intro l; exact fun x hx => hx
  | cons t rest ih =>
    intro l
    refine fun x hx => ih (insertNat t l) ?_
    unfold insertNat
    split_ifs with ht
    · exact hx
    · exact List.mem_append_left _ hx

lemma transLe_refl (a : LoadedNFA) : transLe a a :=
  fun _ _ ts h => ⟨ts, h, fun _ hx => hx⟩

lemma transLe_trans {a b c : LoadedNFA} (h1 : transLe a b) (h2 : transLe b c) :
    transLe a c := by
  intro n key ts h
  obtain ⟨ts2, hb, hsub⟩ := h1 n key ts h
  obtain ⟨ts3, hc, hsub2⟩ := h2 n key ts2 hb
  exact ⟨ts3, hc, fun x hx => hsub2 (hsub hx)⟩

/-- The in-place enlargement of one stored target set only grows the
transition structure. -/
lemma mutate_transLe (nfa : LoadedNFA) (n : Nat) (action : List Char) (ts ts2 : List Nat)
    (hk : getKV ((nfa.states.getD n emptyL)).trans action = some ts)
    (hsub : ts ⊆ ts2) :
    transLe nfa { nfa with states := modifyL nfa.states n (mutTrans action ts2) } := by
  intro n' key ts' h
  by_cases hn : n' = n
  · subst hn
    have hlen : n' < nfa.states.length := lookup_lt_length h
    by_cases hkey : key = action
    · subst hkey
      have hts : ts' = ts := by
        have h2 := hk.symm.trans h
        injection h2 with h2
        exact h2.symm
      refine ⟨ts2, ?_, hts ▸ hsub⟩
      show getKV (((modifyL nfa.states n' (mutTrans key ts2)).getD n' emptyL)).trans key
        = some ts2
      unfold modifyL
      rw [getD_set_self _ _ _ hlen]
      exact getKV_setKV_self _ _ _
    · refine ⟨ts', ?_, fun x hx => hx⟩
      show getKV (((modifyL nfa.states n' (mutTrans action ts2)).getD n' emptyL)).trans key
        = some ts'
      unfold modifyL
      rw [getD_set_self _ _ _ hlen]
      show getKV (setKV ((nfa.states.getD n' emptyL)).trans action ts2) key = some ts'
      rw [getKV_setKV_ne _ _ _ _ hkey]
      exact h
  · refine ⟨ts', ?_, fun x hx => hx⟩
    show getKV (((modifyL nfa.states n (mutTrans action ts2)).getD n' emptyL)).trans key
      = some ts'
    unfold modifyL
    rw [getD_set_ne _ _ _ _ hn]
    exact h

lemma grStep_idx (action : List Char) (acc : List Nat × LoadedNFA) (n : Nat) :
    grStep action acc (Ref.idx n) =
      match getKV ((acc.2.states.getD n emptyL)).trans action with
      | none => acc
      | some ts =>
          let ts2 := grTargets acc.2 ts
          (ts2.foldl (fun l t => insertNat t l) acc.1,
           { acc.2 with states := modifyL acc.2.states n (mutTrans action ts2) }) := rfl

lemma grStep_transLe (action : List Char) (acc : List Nat × LoadedNFA) (r : Ref) :
    transLe acc.2 (grStep action acc r).2 := by
  cases r with
  | fresh => exact transLe_refl _
  | idx n =>
    rw [grStep_idx]
    split
    · exact transLe_refl _
    · rename_i ts hk
      exact mutate_transLe acc.2 n action ts (grTargets acc.2 ts) hk
        (subset_foldl_insertNat _ _)

lemma foldl_grStep_transLe (action : List Char) :
    ∀ (refs : List Ref) (acc : List Nat × LoadedNFA),
      transLe acc.2 ((refs.foldl (grStep action) acc)).2 := by
  intro refs
  induction refs with
  | nil => intro acc; exact transLe_refl _
  | cons r rest ih =>
    intro acc
    exact transLe_trans (grStep_transLe action acc r) (ih (grStep action acc r))

lemma getReachableStates_transLe (nfa : LoadedNFA) (refs : List Ref) (action : List Char) :
    transLe nfa (getReachableStates nfa refs action).2 :=
  foldl_grStep_transLe action refs ([], nfa)

lemma processActions_transLe_from (cur : DState) :
    ∀ (actions : List (List Char)) (b : DFABuild) (nfa0 : LoadedNFA),
      transLe nfa0 b.nfa → transLe nfa0 (processActions b cur actions).nfa := by
  intro actions
  induction actions with
  | nil => intro b nfa0 h; exact h
  | cons action rest ih =>
    intro b nfa0 h
    have h1 : transLe nfa0 (getReachableStates b.nfa cur.refs action).2 :=
      transLe_trans h (getReachableStates_transLe b.nfa cur.refs action)
    simp only [processActions]
    split_ifs <;> exact ih _ nfa0 h1

lemma processActions_transLe (cur : DState) (actions : List (List Char)) (b : DFABuild) :
    transLe b.nfa (processActions b cur actions).nfa :=
  processActions_transLe_from cur actions b b.nfa (transLe_refl _)

lemma constructLoop_transLe : ∀ (fuel : Nat) (b : DFABuild),
    transLe b.nfa (constructLoop fuel b).nfa
  | 0, _ => transLe_refl _
  | fuel + 1, b => by
      obtain ⟨nfa, ds, sd, fi, tr, stack⟩ := b
      cases stack with
      | nil => simp only [constructLoop]; exact transLe_refl _
      | cons cur rest =>
          simp only [constructLoop]
          exact transLe_trans
            (processActions_transLe cur nfa.actions
              { nfa := nfa, dstates := ds, startD := sd, finals := fi,
                transitions := tr, stack := rest })
            (constructLoop_transLe fuel _)


end DFACore

/-- C9: subset construction is not read-only on the loaded NFA.  The
universal part: after construction, every labelled target set stored in
the NFA contains the loaded one (`curr_reachable_states |=
next_reachable_states` in `__get_reachable_states` only ever enlarges
a stored set in place).  The concrete part: for the pipeline on the
regex `a*`, the loaded `a`-edge of state 0 stores exactly `{1}`, and
after subset construction the same stored set holds `{1, 2, 3, 0}`,
the original target together with its epsilon closure — a strict
superset. -/
theorem c9_subset_construction_mutates_nfa :
    (∀ (j : NFACore.AutoJson) (fuel n : Nat) (key : List Char) (ts : List Nat),
      NFACore.getKV ((DFACore.loadNFA j).states.getD n DFACore.emptyL).trans key = some ts →
      ∃ ts2,
        NFACore.getKV (((DFACore.constructDFA j fuel).nfa.states.getD n DFACore.emptyL)).trans key
          = some ts2 ∧ ts ⊆ ts2) ∧
    NFACore.getKV
        ((DFACore.loadNFA (NFACore.toJson (Pipeline.compileNFA ['a', '*']))).states.getD 0
          DFACore.emptyL).trans ['a'] = some [1] ∧
    NFACore.getKV
        ((Pipeline.pipelineDFA ['a', '*'] 10).nfa.states.getD 0 DFACore.emptyL).trans ['a']
      = some [1, 2, 3, 0] := by
  refine ⟨?_, rfl, rfl⟩
  intro j fuel n key ts h
  exact DFACore.constructLoop_transLe fuel _ n key ts h

/-- Witness for C9: the universal superset statement applied to the
pipeline automaton of the regex `a*` at state 0 and key `a`. -/
theorem c9_witness :
    ∃ ts2,
      NFACore.getKV
          (((DFACore.constructDFA (NFACore.toJson (Pipeline.compileNFA ['a', '*'])) 10).nfa.states.getD 0
            DFACore.emptyL)).trans ['a'] = some ts2 ∧ [1] ⊆ ts2 :=
  c9_subset_construction_mutates_nfa.1 (NFACore.toJson (Pipeline.compileNFA ['a', '*'])) 10 0 ['a'] [1] rfl

namespace DFACore

lemma grStep_startName (action : List Char) (acc : List Nat × LoadedNFA) (r : Ref) :
    (grStep action acc r).2.startName = acc.2.startName := by
  cases r with
  | fresh => rfl
  | idx n =>
    rw [grStep_idx]
    split
    · rfl
    · rfl

lemma foldl_grStep_startName (action : List Char) :
    ∀ (refs : List Ref) (acc : List Nat × LoadedNFA),
      ((refs.foldl (grStep action) acc)).2.startName = acc.2.startName := by
  intro refs
  induction refs with
  | nil => intro acc; rfl
  | cons r rest ih =>
    intro acc
    rw [List.foldl_cons, ih, grStep_startName]

lemma getReachableStates_startName (nfa : LoadedNFA) (refs : List Ref) (action : List Char) :
    (getReachableStates nfa refs action).2.startName = nfa.startName :=
  foldl_grStep_startName action refs ([], nfa)

/-- The worklist body preserves the start name and keeps the identity
keys of the discovered DFA states pairwise distinct: a new state is
appended only after the `any` scan found no state with the same key. -/
lemma processActions_inv (cur : DState) (sn : Nat) :
    ∀ (actions : List (List Char)) (b : DFABuild),
      b.nfa.startName = sn →
      ((b.dstates.map (fun ds => canonIds sn ds.refs)).Nodup) →
      (processActions b cur actions).nfa.startName = sn ∧
      (((processActions b cur actions).dstates.map (fun ds => canonIds sn ds.refs)).Nodup) := by
  intro actions
  induction actions with
  | nil => intro b hsn hnd; exact ⟨hsn, hnd⟩
  | cons action rest ih =>
    intro b hsn hnd
    have hsn2 : (getReachableStates b.nfa cur.refs action).2.startName = sn := by
      rw [getReachableStates_startName, hsn]
    simp only [processActions]
    split_ifs with h1 h2 h3 h4 h5 h6
    · exact ih _ hsn2 hnd
    · exact ih _ hsn2 hnd
    · exact ih _ hsn2 hnd
    all_goals
      refine ih _ hsn2 ?_
      simp only [List.map_append, List.map_cons, List.map_nil]
      rw [List.nodup_append]
      refine ⟨hnd, List.nodup_singleton _, ?_⟩
      intro x hx hx2
      simp only [List.mem_singleton] at hx2
      obtain ⟨ds, hds, hc⟩ := List.mem_map.mp hx
      rw [List.any_eq_true] at h2
      exact h2 ⟨ds, hds, by rw [decide_eq_true_eq, hsn2]; rw [hx2] at hc; rw [← hc]⟩

lemma constructLoop_inv (sn : Nat) : ∀ (fuel : Nat) (b : DFABuild),
    b.nfa.startName = sn →
    ((b.dstates.map (fun ds => canonIds sn ds.refs)).Nodup) →
    (((constructLoop fuel b).dstates.map (fun ds => canonIds sn ds.refs)).Nodup)
  | 0, b => fun _ hnd => hnd
  | fuel + 1, b => by
      intro hsn hnd
      obtain ⟨nfa, ds, sd, fi, tr, stack⟩ := b
      cases stack with
      | nil => simpa only [constructLoop] using hnd
      | cons cur rest =>
          simp only [constructLoop]
          have hinv := processActions_inv cur sn nfa.actions
            { nfa := nfa, dstates := ds, startD := sd, finals := fi,
              transitions := tr, stack := rest } hsn hnd
          exact constructLoop_inv sn fuel _ hinv.1 hinv.2

end DFACore

/-- C3 (amended): with the enumeration order of equal id sets resolved
canonically (equal Python sets enumerating identically, the typical
CPython behaviour the source relies on), no two DFA states produced by
subset construction carry the same underlying set of NFA ids: the
sorted identity keys of the discovered states are pairwise distinct.
The identity key itself is not canonical over enumeration orders — see
the counterexample on `set_to_string`. -/
theorem c3_no_two_states_share_id_set (j : NFACore.AutoJson) (fuel : Nat) :
    (((DFACore.constructDFA j fuel).dstates.map
      (fun ds => DFACore.canonIds j.startName ds.refs)).Nodup) := by
  refine DFACore.constructLoop_inv j.startName fuel _ rfl ?_
  simp

namespace RoundTrip

open NFACore DFACore

lemma insertNat_not_mem {t : Nat} {cur : List Nat} (h : t ∉ cur) :
    insertNat t cur = cur ++ [t] := by
  unfold insertNat
  rw [if_neg h]

lemma addToTrans_fresh {κ : Type} [DecidableEq κ] :
    ∀ (acc : List (κ × List Nat)) (key : κ) (t : Nat), key ∉ acc.map Prod.fst →
      addToTrans acc key t = acc ++ [(key, [t])] := by
  intro acc
  induction acc with
  | nil => intro key t _; rfl
  | cons h0 rest ih =>
    intro key t hk
    obtain ⟨k0, v0⟩ := h0
    simp only [List.map_cons, List.mem_cons] at hk
    push_neg at hk
    simp only [addToTrans]
    rw [if_neg (by exact fun hh => hk.1 hh.symm)]
    rw [ih key t hk.2]
    simp

lemma addToTrans_last {κ : Type} [DecidableEq κ] :
    ∀ (acc : List (κ × List Nat)) (key : κ) (cur : List Nat) (t : Nat),
      key ∉ acc.map Prod.fst →
      addToTrans (acc ++ [(key, cur)]) key t = acc ++ [(key, insertNat t cur)] := by
  intro acc
  induction acc with
  | nil => intro key cur t _; simp [addToTrans]
  | cons h0 rest ih =>
    intro key cur t hk
    obtain ⟨k0, v0⟩ := h0
    simp only [List.map_cons, List.mem_cons] at hk
    push_neg at hk
    simp only [List.cons_append, addToTrans]
    rw [if_neg (by exact fun hh => hk.1 hh.symm)]
    simp only [List.append_eq]
    rw [ih key cur t hk.2]

lemma addEntryTargets_grow :
    ∀ (ts : List Nat) (acc : List (List Char × List Nat)) (key : List Char)
      (cur : List Nat), key ∉ acc.map Prod.fst → (cur ++ ts).Nodup →
      ts.foldl (fun tr2 t => addToTrans tr2 key t) (acc ++ [(key, cur)])
        = acc ++ [(key, cur ++ ts)] := by
  intro ts
  induction ts with
  | nil => intro acc key cur _ _; simp
  | cons t rest ih =>
    intro acc key cur hk hnd
    have ht : t ∉ cur := by
      rw [List.nodup_append] at hnd
      exact fun hc => hnd.2.2 hc (List.mem_cons_self t rest)
    simp only [List.foldl_cons]
    rw [addToTrans_last acc key cur t hk, insertNat_not_mem ht]
    have hnd2 : ((cur ++ [t]) ++ rest).Nodup := by
      rw [List.append_assoc]
      simpa using hnd
    rw [ih acc key (cur ++ [t]) hk hnd2]
    simp

lemma addEntryTargets_full (acc : List (List Char × List Nat)) (key : List Char)
    (ts : List Nat) (hk : key ∉ acc.map Prod.fst) (hts : ts.Nodup) (hne : ts ≠ []) :
    addEntryTargets acc key ts = acc ++ [(key, ts)] := by
  cases ts with
  | nil => exact absurd rfl hne
  | cons t rest =>
    unfold addEntryTargets
    simp only [List.foldl_cons]
    rw [addToTrans_fresh acc key t hk]
    have : (([t] : List Nat) ++ rest).Nodup := by simpa using hts
    rw [addEntryTargets_grow rest acc key [t] hk this]
    simp

lemma addEntries_full :
    ∀ (entries acc : List (List Char × List Nat)),
      (acc.map Prod.fst ++ entries.map Prod.fst).Nodup →
      (∀ ent ∈ entries, ent.2.Nodup ∧ ent.2 ≠ []) →
      addEntries acc entries = acc ++ entries := by
  intro entries
  induction entries with
  | nil => intro acc _ _; simp [addEntries]
  | cons ent rest ih =>
    intro acc hnd hts
    obtain ⟨key, ts⟩ := ent
    have hk : key ∉ acc.map Prod.fst := by
      rw [List.nodup_append] at hnd
      exact fun hc => hnd.2.2 hc (by simp)
    have h1 : addEntryTargets acc key ts = acc ++ [(key, ts)] :=
      addEntryTargets_full acc key ts hk (hts (key, ts) (by simp)).1
        (hts (key, ts) (by simp)).2
    unfold addEntries
    simp only [List.foldl_cons]
    have h2 : addEntries (acc ++ [(key, ts)]) rest = (acc ++ [(key, ts)]) ++ rest := by
      refine ih (acc ++ [(key, ts)]) ?_ (fun e he => hts e (by simp [he]))
      simpa [List.append_assoc] using hnd
    unfold addEntries at h2
    rw [show (addEntryTargets acc key ts) = acc ++ [(key, ts)] from h1, h2]
    simp

lemma modifyL_cons_succ (p : LState) (L : List LState) (n : Nat) (f : LState → LState) :
    modifyL (p :: L) (n + 1) f = p :: modifyL L n f := by
  simp [modifyL, List.set]

lemma modifyL_append_cons :
    ∀ (pre : List LState) (x : LState) (tail : List LState) (f : LState → LState),
      modifyL (pre ++ x :: tail) pre.length f = pre ++ f x :: tail := by
  intro pre
  induction pre with
  | nil => intro x tail f; simp [modifyL, List.set]
  | cons p rest ih =>
    intro x tail f
    simp only [List.cons_append, List.length_cons, modifyL_cons_succ]
    rw [ih]

end RoundTrip

namespace RoundTrip

open NFACore DFACore

lemma modifyL_append_cons_pe (pre : List LState) (x : LState) (tail : List LState)
    (sj : NFACore.StateJson) :
    modifyL (pre ++ x :: tail) pre.length (fun ls => processEntries ls sj)
      = pre ++ processEntries x sj :: tail :=
  modifyL_append_cons pre x tail _

/-- The second loader loop touches each list position exactly once (the
JSON names are the positions, in order), so it maps `processEntries`
across the state list. -/
lemma load_fold_enum :
    ∀ (sds : List StateData) (pre : List LState),
      List.foldl (fun s ns => modifyL s ns.1 (fun ls => processEntries ls ns.2))
        (pre ++ sds.map (fun sd => ({ final := (stateJsonOf sd).final, trans := [] } : LState)))
        ((List.enumFrom pre.length sds).map (fun isd => (isd.1, stateJsonOf isd.2)))
      = pre ++ sds.map (fun sd =>
          processEntries { final := (stateJsonOf sd).final, trans := [] } (stateJsonOf sd)) := by
  intro sds
  induction sds with
  | nil => intro pre; simp
  | cons sd rest ih =>
    intro pre
    simp only [List.enumFrom, List.map_cons, List.foldl_cons]
    rw [modifyL_append_cons_pe]
    have hih := ih (pre ++ [processEntries { final := (stateJsonOf sd).final, trans := [] }
      (stateJsonOf sd)])
    rw [List.length_append, List.length_singleton] at hih
    have hshape : (pre ++ [processEntries { final := (stateJsonOf sd).final, trans := [] }
        (stateJsonOf sd)]) ++ rest.map (fun sd0 =>
          ({ final := (stateJsonOf sd0).final, trans := [] } : LState))
        = pre ++ processEntries { final := (stateJsonOf sd).final, trans := [] }
            (stateJsonOf sd) :: rest.map (fun sd0 =>
              ({ final := (stateJsonOf sd0).final, trans := [] } : LState)) := by
      simp
    rw [← hshape, hih]
    simp

end RoundTrip

namespace RoundTrip

open NFACore DFACore

lemma enumFrom_map_snd_comp {α β : Type} (g : α → β) :
    ∀ (l : List α) (k : Nat),
      (List.enumFrom k l).map (fun isd => g isd.2) = l.map g := by
  intro l
  induction l with
  | nil => intro k; rfl
  | cons x xs ih =>
    intro k
    simp only [List.enumFrom, List.map_cons]
    rw [ih]

lemma loadNFA_states (j : NFACore.AutoJson) :
    (loadNFA j).states = j.states.foldl
      (fun s ns => modifyL s ns.1 (fun ls => processEntries ls ns.2))
      (j.states.map (fun ns => ({ final := ns.2.final, trans := [] } : LState))) := rfl

lemma strKeys_nodup (trans : List (Label × List Nat))
    (hnd : (trans.map (fun lt => lt.1)).Nodup)
    (h : ∀ lt ∈ trans, lt.1 ≠ none) :
    (trans.map (fun lt => labelStr lt.1)).Nodup := by
  rw [show (fun lt : Label × List Nat => labelStr lt.1)
    = labelStr ∘ (fun lt : Label × List Nat => lt.1) from rfl, ← List.map_map]
  refine List.Nodup.map_on ?_ hnd
  intro x hx y hy heq
  obtain ⟨ltx, hltx, hxe⟩ := List.mem_map.mp hx
  obtain ⟨lty, hlty, hye⟩ := List.mem_map.mp hy
  have hxn : x ≠ none := hxe ▸ h ltx hltx
  have hyn : y ≠ none := hye ▸ h lty hlty
  cases x with
  | none => exact absurd rfl hxn
  | some sx =>
    cases y with
    | none => exact absurd rfl hyn
    | some sy =>
      simp only [labelStr] at heq
      rw [heq]

lemma entries_keys_nodup (sd : StateData) (hwf : wfState sd) :
    (((stateJsonOf sd).entries).map Prod.fst).Nodup := by
  unfold stateJsonOf
  simp only [List.map_append]
  rw [List.nodup_append]
  refine ⟨?_, ?_, ?_⟩
  · rw [List.map_map]
    exact strKeys_nodup sd.trans hwf.1 (fun lt hlt => (hwf.2.1 lt hlt).2.2.1)
  · split <;> simp
  · intro x hx hx2
    rw [List.map_map] at hx
    obtain ⟨lt, hlt, hxe⟩ := List.mem_map.mp hx
    have hlab := hwf.2.1 lt hlt
    split at hx2
    · simp at hx2
    · simp only [List.map_cons, List.map_nil, List.mem_singleton] at hx2
      subst hx2
      cases hl : lt.1 with
      | none => exact hlab.2.2.1 hl
      | some s =>
        apply hlab.2.2.2
        simp only [Function.comp] at hxe
        rw [hl] at hxe
        simp only [labelStr] at hxe
        rw [hl, hxe]

lemma entries_targets_ok (sd : StateData) (hwf : wfState sd) :
    ∀ ent ∈ (stateJsonOf sd).entries, ent.2.Nodup ∧ ent.2 ≠ [] := by
  intro ent hent
  unfold stateJsonOf at hent
  simp only [List.mem_append] at hent
  cases hent with
  | inl h1 =>
    obtain ⟨lt, hlt, he⟩ := List.mem_map.mp h1
    have := hwf.2.1 lt hlt
    subst he
    exact ⟨this.2.1, this.1⟩
  | inr h2 =>
    split at h2
    · simp at h2
    · simp only [List.mem_singleton] at h2
      subst h2
      rename_i hne
      refine ⟨hwf.2.2, ?_⟩
      intro hemp
      simp only at hemp
      exact hne (by rw [hemp]; rfl)

lemma processEntries_stateJsonOf (sd : StateData) (hwf : wfState sd) :
    processEntries { final := (stateJsonOf sd).final, trans := [] } (stateJsonOf sd)
      = { final := sd.final, trans := (stateJsonOf sd).entries } := by
  unfold processEntries
  have h := addEntries_full (stateJsonOf sd).entries []
    (by simpa using entries_keys_nodup sd hwf) (entries_targets_ok sd hwf)
  simp only at h ⊢
  rw [h]
  rfl

end RoundTrip

namespace RoundTrip

open NFACore DFACore

lemma getKV_append_not {κ β : Type} [DecidableEq κ] :
    ∀ (l1 l2 : List (κ × β)) (key : κ), key ∉ l1.map Prod.fst →
      getKV (l1 ++ l2) key = getKV l2 key := by
  intro l1
  induction l1 with
  | nil => intro l2 key _; rfl
  | cons h0 rest ih =>
    intro l2 key hk
    obtain ⟨k0, v0⟩ := h0
    simp only [List.map_cons, List.mem_cons] at hk
    push_neg at hk
    simp only [List.cons_append, getKV]
    rw [if_neg (fun hh => hk.1 hh.symm)]
    exact ih l2 key hk.2

lemma filter_str_keep (trans : List (Label × List Nat))
    (h : ∀ lt ∈ trans, lt.1 ≠ none ∧ lt.1 ≠ some ['ε']) :
    (trans.map (fun lt => (labelStr lt.1, lt.2))).filter
      (fun ent => ¬(ent.1 = ['ε'])) = trans.map (fun lt => (labelStr lt.1, lt.2)) := by
  induction trans with
  | nil => rfl
  | cons lt rest ih =>
    have hlt := h lt (by simp)
    have hlab : labelStr lt.1 ≠ ['ε'] := by
      cases hl : lt.1 with
      | none => simp [labelStr]
      | some s =>
        simp only [labelStr]
        intro hc
        exact hlt.2 (by rw [hl, hc])
    simp only [List.map_cons, List.filter_cons]
    rw [if_pos (by simpa using hlab)]
    rw [ih (fun x hx => h x (by simp [hx]))]

lemma loadedLabeled_stateJsonOf (sd : StateData) (hwf : wfState sd) :
    loadedLabeled { final := sd.final, trans := (stateJsonOf sd).entries } = sd.trans := by
  unfold loadedLabeled stateJsonOf
  simp only
  rw [List.filter_append]
  rw [filter_str_keep sd.trans (fun lt hlt =>
    ⟨(hwf.2.1 lt hlt).2.2.1, (hwf.2.1 lt hlt).2.2.2⟩)]
  have h2 : ((if sd.eps.isEmpty then [] else [((['ε'] : List Char), sd.eps)]).filter
      (fun ent => ¬(ent.1 = ['ε']))) = [] := by
    split <;> simp
  rw [h2, List.append_nil, List.map_map]
  have h3 : ∀ lt ∈ sd.trans,
      ((fun ent : List Char × List Nat => ((some ent.1 : Label), ent.2)) ∘
        (fun lt : Label × List Nat => (labelStr lt.1, lt.2))) lt = id lt := by
    intro lt hlt
    have := (hwf.2.1 lt hlt).2.2.1
    cases hl : lt.1 with
    | none => exact absurd hl this
    | some s =>
      simp only [Function.comp, labelStr, hl, id]
      rw [← hl]
  rw [List.map_congr_left h3, List.map_id]

lemma loadedEps_stateJsonOf (sd : StateData) (hwf : wfState sd) :
    loadedEps { final := sd.final, trans := (stateJsonOf sd).entries } = sd.eps := by
  unfold loadedEps stateJsonOf
  simp only
  rw [getKV_append_not _ _ _ (by
    intro hc
    rw [List.map_map] at hc
    obtain ⟨lt, hlt, hxe⟩ := List.mem_map.mp hc
    have hlab := hwf.2.1 lt hlt
    simp only [Function.comp] at hxe
    cases hl : lt.1 with
    | none => exact hlab.2.2.1 hl
    | some s =>
      apply hlab.2.2.2
      rw [hl] at hxe
      simp only [labelStr] at hxe
      rw [hl, hxe])]
  cases he : sd.eps with
  | nil => simp [getKV]
  | cons x xs => simp [getKV]

end RoundTrip

/-- C4 (amended): exporting a built NFA with `to_json` and re-loading
the JSON yields the identical labelled-transition multigraph (per-state
labelled edges with identical labels, epsilon edges, accept flags)
and the same start state under the `S<id>`-to-position renaming,
provided the automaton is well-formed in the builder's sense and no
transition label is the literal character `ε` (such a label is written
under the same JSON key as the epsilon edges, and a `None` label is
stringified, which is what the counterexample exhibits). -/
theorem c4_reload_preserves_multigraph (m : NFACore.MNFA) (hwf : RoundTrip.wfNFA m) :
    RoundTrip.roundTripExact m := by
  refine ⟨?_, rfl⟩
  have hbase : (NFACore.toJson m).states.map
      (fun ns => ({ final := ns.2.final, trans := [] } : DFACore.LState))
      = m.states.map (fun sd =>
          ({ final := (NFACore.stateJsonOf sd).final, trans := [] } : DFACore.LState)) := by
    show ((List.enumFrom 0 m.states).map (fun isd => (isd.1, NFACore.stateJsonOf isd.2))).map
        (fun ns => ({ final := ns.2.final, trans := [] } : DFACore.LState)) = _
    rw [List.map_map]
    exact RoundTrip.enumFrom_map_snd_comp
      (fun sd => ({ final := (NFACore.stateJsonOf sd).final, trans := [] } : DFACore.LState))
      m.states 0
  have hmain := RoundTrip.load_fold_enum m.states []
  simp only [List.nil_append, List.length_nil] at hmain
  have hstates : (DFACore.loadNFA (NFACore.toJson m)).states = m.states.map (fun sd =>
      DFACore.processEntries { final := (NFACore.stateJsonOf sd).final, trans := [] }
        (NFACore.stateJsonOf sd)) := by
    rw [RoundTrip.loadNFA_states, hbase]
    exact hmain
  show RoundTrip.loadedView (DFACore.loadNFA (NFACore.toJson m)) = RoundTrip.origView m
  unfold RoundTrip.loadedView RoundTrip.origView
  rw [hstates, List.map_map]
  refine List.map_congr_left ?_
  intro sd hsd
  have hw := hwf sd hsd
  simp only [Function.comp]
  rw [RoundTrip.processEntries_stateJsonOf sd hw]
  rw [RoundTrip.loadedLabeled_stateJsonOf sd hw, RoundTrip.loadedEps_stateJsonOf sd hw]

/-- Witness for C4 (amended): the compiled NFA of the regex `a` is
well-formed and its JSON round trip is exact. -/
theorem c4_witness_roundtrip : RoundTrip.roundTripExact (Pipeline.compileNFA ['a']) :=
  c4_reload_preserves_multigraph (Pipeline.compileNFA ['a'])
    (by unfold RoundTrip.wfNFA RoundTrip.wfState; decide)
